import Mathlib

/-!
Shallow embedding of the structured content-extraction engine of
`src/plugins/default/ExtractHtmlContentPlugin.ts` (hughestech/scraper).

JS strings are Lean `String`; a JS value that may be `null` is an `Option`.
A scraped cell value is `Option String`: `none` models JS `null` (absent
attribute), `some s` a string value.  DOM nodes are opaque handles (`Nat`);
the document-tree collaborator is a structure of query functions, matching
the `IDomNode` capability the plugin consumes.
-/

namespace Scraper

/-- A scraped cell value: JS `string | null`. -/
abbrev Cell := Option String

/-- One selector pair from the plugin options (`label` optional,
`contentProperty` filled by the schema default upstream). -/
structure SelectorPair where
  label : Option String
  contentSelector : String
  contentProperty : String
deriving Repr, DecidableEq

/-- The document-tree capability consumed by the plugin: `rootQuery`
models `this.document.querySelectorAll`, `nodeQuery` models
`baseElm.querySelectorAll`, `getAttr` models `elm.getAttribute`
(JS returns `null` for an absent attribute, hence `Option`). -/
structure DomDoc where
  rootQuery : String → List Nat
  nodeQuery : Nat → String → List Nat
  getAttr : Nat → String → Option String

/-- A `Project` handle; the plugin's `test` ignores it. -/
structure Project where
  id : Nat

/-- The part of a `Resource` the plugin's `test` consults. -/
structure Resource where
  contentType : String

/-- JS truthiness of a scraped value: `null` and `""` are falsy. -/
def truthy : Cell → Bool
  | none => false
  | some s => s ≠ ""

/-- JS `String.prototype.startsWith`, on the underlying characters. -/
def jsStartsWith (s pre : String) : Bool :=
  pre.data.isPrefixOf s.data

/-- JS `String.prototype.trim`: strip leading and trailing whitespace. -/
def jsTrim (s : String) : String :=
  String.mk (((s.data.dropWhile Char.isWhitespace).reverse.dropWhile
    Char.isWhitespace).reverse)

/-- JS `attr ? attr.trim() : attr` (lines 106-107 / 131-132): a truthy
(non-empty) string is trimmed, `null` and `""` pass through unchanged. -/
def trimRead (attr : Option String) : Cell :=
  match attr with
  | none => none
  | some s => if s = "" then some "" else some (jsTrim s)

/-- JS `split(' ')` on a single-space separator: every occurrence splits,
empty chunks are kept. -/
def splitSpaceAux (cur : List Char) : List Char → List String
  | [] => [String.mk cur.reverse]
  | c :: rest =>
    if c = ' ' then String.mk cur.reverse :: splitSpaceAux [] rest
    else splitSpaceAux (c :: cur) rest

/-- Embeds `selectors[0].split(' ')` (line 145). -/
def splitSpace (s : String) : List String :=
  splitSpaceAux [] s.data

/-- The candidate bases tried by `getSelectorBase`'s outer loop:
`cssFragments.slice(0, i + 1).join(' ')` for `i = 0 .. fragments.length - 1`
(line 148). -/
def candidateBases (fragments : List String) : List String :=
  (List.range fragments.length).map
    (fun i => String.intercalate " " (fragments.take (i + 1)))

/-- The nested loops of `getSelectorBase` (lines 147-153): grow the
candidate while every selector `startsWith` it; on the first failure
return the last accepted candidate. -/
def selectorBaseLoop (selectors : List String) :
    List String → Option String → Option String
  | [], acc => acc
  | checkBase :: rest, acc =>
    if selectors.all (fun s => jsStartsWith s checkBase) then
      selectorBaseLoop selectors rest (some checkBase)
    else acc

/-- Embeds `getSelectorBase` (lines 142-155).  The JS crashes on an empty pair
list (`selectors[0]` is `undefined`); every caller guarantees at least
two pairs, and we return `none` on the unreachable empty case. -/
def getSelectorBase (selectorPairs : List SelectorPair) : Option String :=
  let selectors := selectorPairs.map (fun sp => sp.contentSelector)
  match selectors with
  | [] => none
  | s0 :: _ => selectorBaseLoop selectors (candidateBases (splitSpace s0)) none

/-- Embeds `Math.max(...contentBySelector.map(result => result.length))`
(line 176), for a non-empty list of natural lengths. -/
def maxLen (contentBySelector : List (List Cell)) : Nat :=
  (contentBySelector.map List.length).foldr max 0

/-- The padding loop body (lines 178-186): a list shorter than
`maxLength` is extended with copies of its own last value, or the empty string if it
was empty. -/
def padColumn (maxLength : Nat) (selectorContent : List Cell) : List Cell :=
  if selectorContent.length < maxLength then
    let lastVal := selectorContent.getLast?.getD (some "")
    selectorContent ++ List.replicate (maxLength - selectorContent.length) lastVal
  else selectorContent

/-- Embeds `transformToContentRows` (lines 174-197): pad every per-selector list
to the common maximum length, then transpose into rows. -/
def transformToContentRows (contentBySelector : List (List Cell)) :
    List (List Cell) :=
  let maxLength := maxLen contentBySelector
  let padded := contentBySelector.map (padColumn maxLength)
  (List.range maxLength).map
    (fun idx => padded.map (fun col => col.getD idx none))

/-- First occurrence of `pat` (non-empty) removed from the character
list; no occurrence leaves the list unchanged. -/
def removeFirstAux (pat : List Char) : List Char → List Char
  | [] => []
  | c :: rest =>
    if pat.isPrefixOf (c :: rest) then rest.drop (pat.length - 1)
    else c :: removeFirstAux pat rest

/-- JS `str.replace(pat, '')` with a plain-string pattern: only the first
occurrence is removed; an empty pattern matches at position 0 and the
string is unchanged. -/
def replaceFirst (s pat : String) : String :=
  match pat.data with
  | [] => s
  | _ => String.mk (removeFirstAux pat.data s.data)

/-- The suffix selectors of scoped mode (line 96):
`contentSelector.replace(selectorBase, '').trim()` for each pair. -/
def suffixSelectors (selectorPairs : List SelectorPair) (selectorBase : String) :
    List String :=
  selectorPairs.map (fun sp => jsTrim (replaceFirst sp.contentSelector selectorBase))

/-- Scoped mode, lines 99-110: the per-selector value lists for one base
element — query each suffix selector inside the base element, read the
configured property, trim truthy values, and drop falsy values
(`.filter(val => val)`). -/
def colsForBase (doc : DomDoc) (selectorPairs : List SelectorPair)
    (selectorBase : String) (baseElm : Nat) : List (List Cell) :=
  (selectorPairs.zip (suffixSelectors selectorPairs selectorBase)).map
    (fun p =>
      ((doc.nodeQuery baseElm p.2).map
        (fun elm => trimRead (doc.getAttr elm p.1.contentProperty))).filter truthy)

/-- Line 113: a base element's scraped content is valid when at least one
column holds a non-empty value. -/
def validRowResult (contentBySelector : List (List Cell)) : Bool :=
  contentBySelector.any (fun colEntry => colEntry.length > 0)

/-- The rows one base element contributes (lines 112-119): its aligned
rows when valid, nothing otherwise. -/
def rowsForBase (doc : DomDoc) (selectorPairs : List SelectorPair)
    (selectorBase : String) (baseElm : Nat) : List (List Cell) :=
  let contentBySelector := colsForBase doc selectorPairs selectorBase baseElm
  if validRowResult contentBySelector then transformToContentRows contentBySelector
  else []

/-- The `reduce` of scoped mode over an explicit base-element list
(lines 97-124). -/
def scopedRows (doc : DomDoc) (selectorPairs : List SelectorPair)
    (selectorBase : String) (baseElms : List Nat) : List (List Cell) :=
  baseElms.foldl
    (fun rows baseElm => rows ++ rowsForBase doc selectorPairs selectorBase baseElm)
    []

/-- Scoped-mode extraction: the reduce runs over
`document.querySelectorAll(selectorBase)` (line 97). -/
def scopedExtract (doc : DomDoc) (selectorPairs : List SelectorPair)
    (selectorBase : String) : List (List Cell) :=
  scopedRows doc selectorPairs selectorBase (doc.rootQuery selectorBase)

/-- Global mode, lines 128-134: the per-selector value lists — each full
selector queried against the whole tree, values read and trimmed when
truthy.  Note: unlike scoped mode there is no `.filter(val => val)` here;
falsy values stay in the lists. -/
def globalCols (doc : DomDoc) (selectorPairs : List SelectorPair) :
    List (List Cell) :=
  selectorPairs.map
    (fun sp =>
      (doc.rootQuery sp.contentSelector).map
        (fun elm => trimRead (doc.getAttr elm sp.contentProperty)))

/-- Global-mode extraction (lines 127-136). -/
def globalExtract (doc : DomDoc) (selectorPairs : List SelectorPair) :
    List (List Cell) :=
  transformToContentRows (globalCols doc selectorPairs)

/-- The base-inference gate of `extractContent` (lines 82-89): only with
more than one selector pair is `getSelectorBase` consulted, and its
result is kept only when it matches at least one element in the tree. -/
def inferSelectorBase (doc : DomDoc) (selectorPairs : List SelectorPair) :
    Option String :=
  if selectorPairs.length > 1 then
    match getSelectorBase selectorPairs with
    | some potentialSelectorBase =>
      if (doc.rootQuery potentialSelectorBase).length > 0 then
        some potentialSelectorBase
      else none
    | none => none
  else none

/-- Embeds `extractContent` (lines 79-140). -/
def extractContent (doc : DomDoc) (selectorPairs : List SelectorPair) :
    List (List Cell) :=
  match inferSelectorBase doc selectorPairs with
  | some selectorBase => scopedExtract doc selectorPairs selectorBase
  | none => globalExtract doc selectorPairs

/-- Embeds `contentRow.join(',')` (line 163): JS `Array.join` renders `null` as
the empty string. -/
def joinRow (contentRow : List Cell) : String :=
  String.intercalate "," (contentRow.map (fun c => c.getD ""))

/-- Embeds `diffAndMerge` (lines 161-171) with the `content` set of the instance made
explicit: returns the kept rows and the updated seen-set.  The JS `Set`
is modelled as the list of keys in insertion order. -/
def diffAndMerge (content : List String) :
    List (List Cell) → List (List Cell) × List String
  | [] => ([], content)
  | contentRow :: rest =>
    let joinedContent := joinRow contentRow
    if joinedContent ∈ content then diffAndMerge content rest
    else
      let r := diffAndMerge (content ++ [joinedContent]) rest
      (contentRow :: r.1, r.2)

/-- One full pass of the engine against a document tree, from a given
dedup state: `apply` = `extractContent` then `diffAndMerge` (lines 69-77). -/
def applyPass (doc : DomDoc) (selectorPairs : List SelectorPair)
    (content : List String) : List (List Cell) × List String :=
  diffAndMerge content (extractContent doc selectorPairs)

/-- Does `pat` occur as a contiguous run inside the character list? -/
def hasInfix (pat : List Char) : List Char → Bool
  | [] => pat.isEmpty
  | c :: rest => pat.isPrefixOf (c :: rest) || hasInfix pat rest

/-- Case-insensitive `/html/i` test (line 66): does the content type
contain `"html"` as a substring, ignoring case. -/
def htmlTest (ct : String) : Bool :=
  hasInfix "html".data (ct.data.map Char.toLower)

/-- Embeds `test` (lines 60-67).  `resource` may be `null`/`undefined` in JS,
hence the `Option`; `opts.selectorPairs` may be `undefined` when not
configured, hence the `Option` on it too. -/
def test (project : Project) (selectorPairs : Option (List SelectorPair))
    (resource : Option Resource) : Bool :=
  match resource with
  | none => false
  | some r =>
    let selectorsPresent :=
      match selectorPairs with
      | none => false
      | some sps => sps.length > 0
    if !selectorsPresent then false
    else htmlTest r.contentType

/-- Holds when `b` is a whitespace-delimited token-sequence prefix of `s`: the token
list of `b` is a prefix of the token list of `s`.  (The spec's reading of
"shared literally as a whitespace-delimited token sequence".) -/
def tokPrefix (b s : String) : Bool :=
  (splitSpace b).isPrefixOf (splitSpace s)

/-- A single selector pair reading property `"t"` through selector `"a"`. -/
def onePair : List SelectorPair :=
  [⟨none, "a", "t"⟩]

/-- Two elements match `"a"`, both scraping to the same value `"x"`:
the computed rows of a pass then hold a within-pass duplicate key. -/
def dupDoc : DomDoc :=
  ⟨fun s => if s = "a" then [0, 1] else [],
   fun _ _ => [],
   fun _ p => if p = "t" then some "x" else none⟩

/-- One element matching `"a"`, scraping to `"x"`. -/
def oneRowDoc : DomDoc :=
  ⟨fun s => if s = "a" then [0] else [],
   fun _ _ => [],
   fun n p => if n = 0 ∧ p = "t" then some "x" else none⟩

/-- The same tree after a mutation added one new element scraping to
`"y"`. -/
def twoRowDoc : DomDoc :=
  ⟨fun s => if s = "a" then [0, 1] else [],
   fun _ _ => [],
   fun n p => if p = "t" then (if n = 0 then some "x" else some "y") else none⟩

/-- One element matches `"a"` but the read attribute is absent (`null`). -/
def absentAttrDoc : DomDoc :=
  ⟨fun s => if s = "a" then [0] else [],
   fun _ _ => [],
   fun _ _ => none⟩

/-- One element matches `"a"` and the read attribute is the empty string. -/
def emptyAttrDoc : DomDoc :=
  ⟨fun s => if s = "a" then [0] else [],
   fun _ _ => [],
   fun _ _ => some ""⟩

/-- The spec's §8 running example: two `.item` base elements (handles 1
and 2), the first with title `"T1"` (node 11) and price `"P1"` (node 12),
the second with title `"T2"` (node 21) and no price.  Handle 3 matches
nothing (a content-empty block). -/
def itemDoc : DomDoc :=
  ⟨fun s =>
    if s = ".item" then [1, 2]
    else if s = ".item .title" then [11, 21]
    else if s = ".item .price" then [12]
    else [],
   fun n s =>
    if n = 1 ∧ s = ".title" then [11]
    else if n = 1 ∧ s = ".price" then [12]
    else if n = 2 ∧ s = ".title" then [21]
    else [],
   fun n p =>
    if p = "innerText" then
      if n = 11 then some "T1"
      else if n = 12 then some "P1"
      else if n = 21 then some "T2"
      else none
    else none⟩

/-- The spec's §8 selector pairs: `.item .title` and `.item .price`. -/
def itemPairs : List SelectorPair :=
  [⟨none, ".item .title", "innerText"⟩, ⟨none, ".item .price", "innerText"⟩]

/-! ## Lemmas about the dedup filter -/

/-- Core behaviour of `diffAndMerge`: the kept rows are a subsequence of
the input, the updated seen-set is the old one extended with exactly the
kept rows' keys in encounter order, the kept keys are pairwise distinct,
and none of them was previously seen. -/
theorem diffAndMerge_spec (seen : List String) (rows : List (List Cell)) :
    (diffAndMerge seen rows).1.Sublist rows
  ∧ (diffAndMerge seen rows).2 = seen ++ (diffAndMerge seen rows).1.map joinRow
  ∧ ((diffAndMerge seen rows).1.map joinRow).Nodup
  ∧ (∀ k ∈ (diffAndMerge seen rows).1.map joinRow, k ∉ seen) := by
  induction rows generalizing seen with
  | nil => simp [diffAndMerge]
  | cons row rest ih =>
    by_cases h : joinRow row ∈ seen
    · simp only [diffAndMerge, if_pos h]
      obtain ⟨h1, h2, h3, h4⟩ := ih seen
      exact ⟨h1.cons row, h2, h3, h4⟩
    · simp only [diffAndMerge, if_neg h]
      obtain ⟨h1, h2, h3, h4⟩ := ih (seen ++ [joinRow row])
      refine ⟨h1.cons₂ row, ?_, ?_, ?_⟩
      · simpa [List.append_assoc] using h2
      · refine List.nodup_cons.mpr ⟨fun hc => ?_, h3⟩
        exact h4 (joinRow row) hc (by simp)
      · intro k hk
        rcases List.mem_cons.mp hk with hk | hk
        · exact hk ▸ h
        · intro hks
          exact h4 k hk (by simp [hks])

/-- After a pass, every computed row's key is in the updated seen-set,
kept or not. -/
theorem diffAndMerge_mem_seen (seen : List String) (rows : List (List Cell)) :
    ∀ row ∈ rows, joinRow row ∈ (diffAndMerge seen rows).2 := by
  induction rows generalizing seen with
  | nil => simp
  | cons row rest ih =>
    intro row' hrow'
    by_cases h : joinRow row ∈ seen
    · simp only [diffAndMerge, if_pos h]
      rcases List.mem_cons.mp hrow' with hr | hr
      · have := (diffAndMerge_spec seen rest).2.1
        rw [hr, this]
        exact List.mem_append_left _ h
      · exact ih seen row' hr
    · simp only [diffAndMerge, if_neg h]
      rcases List.mem_cons.mp hrow' with hr | hr
      · have := (diffAndMerge_spec (seen ++ [joinRow row]) rest).2.1
        rw [hr, this]
        exact List.mem_append_left _ (by simp)
      · exact ih (seen ++ [joinRow row]) row' hr

/-- Rows whose keys are all already seen are all dropped. -/
theorem diffAndMerge_all_seen (seen : List String) (rows : List (List Cell))
    (h : ∀ row ∈ rows, joinRow row ∈ seen) : (diffAndMerge seen rows).1 = [] := by
  induction rows generalizing seen with
  | nil => simp [diffAndMerge]
  | cons row rest ih =>
    have hm : joinRow row ∈ seen := h row (by simp)
    simp only [diffAndMerge, if_pos hm]
    exact ih seen fun row' hr => h row' (List.mem_cons_of_mem _ hr)

/-- Rows with pairwise-distinct keys, none previously seen, are all
kept. -/
theorem diffAndMerge_fresh (seen : List String) (rows : List (List Cell))
    (hn : (rows.map joinRow).Nodup) (hf : ∀ row ∈ rows, joinRow row ∉ seen) :
    (diffAndMerge seen rows).1 = rows := by
  induction rows generalizing seen with
  | nil => simp [diffAndMerge]
  | cons row rest ih =>
    rw [List.map_cons, List.nodup_cons] at hn
    have hm : joinRow row ∉ seen := hf row (by simp)
    simp only [diffAndMerge, if_neg hm]
    have hrest : (diffAndMerge (seen ++ [joinRow row]) rest).1 = rest := by
      refine ih _ hn.2 ?_
      intro row' hr
      simp only [List.mem_append, List.mem_singleton]
      push_neg
      exact ⟨hf row' (List.mem_cons_of_mem _ hr),
        fun he => hn.1 (he ▸ List.mem_map_of_mem joinRow hr)⟩
    simp [hrest]

/-- When exactly one computed row's key is unseen, exactly that row is
returned. -/
theorem diffAndMerge_single_new (seen : List String) (rows : List (List Cell))
    (r : List Cell)
    (h : rows.filter (fun row => !(decide (joinRow row ∈ seen))) = [r]) :
    (diffAndMerge seen rows).1 = [r] := by
  induction rows generalizing seen with
  | nil => simp at h
  | cons row rest ih =>
    simp only [List.filter_cons] at h
    by_cases hm : joinRow row ∈ seen
    · rw [if_neg (by simp [hm])] at h
      simp only [diffAndMerge, if_pos hm]
      exact ih _ h
    · rw [if_pos (by simp [hm])] at h
      obtain ⟨he, hrest⟩ := List.cons_eq_cons.mp h
      simp only [diffAndMerge, if_neg hm]
      have hnil : (diffAndMerge (seen ++ [joinRow row]) rest).1 = [] := by
        refine diffAndMerge_all_seen _ _ fun row' hr => ?_
        have hmem := List.filter_eq_nil_iff.mp hrest row' hr
        simp only [Bool.not_eq_true', decide_eq_false_iff_not, not_not] at hmem
        exact List.mem_append_left _ hmem
      subst he
      simp [hnil]

/-! ## Claim theorems: deduplication -/

/-- C10: for every single pass, the returned row list is a subsequence of
the computed row list, its keys are pairwise distinct (a within-pass
duplicate key is emitted at most once), and the seen-set after the pass
is the seen-set before plus exactly the returned rows' keys, in order —
keys are never removed. -/
theorem dedup_pass_invariants (seen : List String) (rows : List (List Cell)) :
    (diffAndMerge seen rows).1.Sublist rows
  ∧ ((diffAndMerge seen rows).1.map joinRow).Nodup
  ∧ (diffAndMerge seen rows).2 = seen ++ (diffAndMerge seen rows).1.map joinRow :=
  ⟨(diffAndMerge_spec seen rows).1, (diffAndMerge_spec seen rows).2.2.1,
    (diffAndMerge_spec seen rows).2.1⟩

/-- C1, counterexample: from a fresh engine, a first pass does NOT always
return the computed rows as they are — with two identical elements the
computed rows hold a duplicate key and the duplicate is dropped already
in the first pass. -/
theorem dedup_first_pass_counterexample :
    (applyPass dupDoc onePair []).1 ≠ extractContent dupDoc onePair := by
  decide

/-- C1, amended: provided the first pass's computed rows have
pairwise-distinct keys none of which the instance has seen, the first
pass returns exactly the computed rows; a second pass against identical
tree content returns the empty row list; and a further pass whose
computed rows contain exactly one row with a not-yet-seen key returns
exactly that one row. -/
theorem dedup_passes_amended (doc docNew : DomDoc) (ps : List SelectorPair)
    (seen : List String) (r : List Cell)
    (hnodup : ((extractContent doc ps).map joinRow).Nodup)
    (hfresh : ∀ row ∈ extractContent doc ps, joinRow row ∉ seen)
    (hnew : (extractContent docNew ps).filter
      (fun row => !(decide (joinRow row ∈
        (applyPass doc ps ((applyPass doc ps seen).2)).2))) = [r]) :
    (applyPass doc ps seen).1 = extractContent doc ps
  ∧ (applyPass doc ps ((applyPass doc ps seen).2)).1 = []
  ∧ (applyPass docNew ps ((applyPass doc ps ((applyPass doc ps seen).2)).2)).1
      = [r] := by
  refine ⟨diffAndMerge_fresh seen _ hnodup hfresh, ?_, ?_⟩
  · exact diffAndMerge_all_seen _ _
      (diffAndMerge_mem_seen seen (extractContent doc ps))
  · exact diffAndMerge_single_new _ _ r hnew

/-- Witness for the amended C1: one element scraping `"x"`, two passes,
then a mutated tree adding an element scraping `"y"`. -/
theorem dedup_passes_amended_witness :
    (applyPass oneRowDoc onePair []).1 = extractContent oneRowDoc onePair
  ∧ (applyPass oneRowDoc onePair ((applyPass oneRowDoc onePair []).2)).1 = []
  ∧ (applyPass twoRowDoc onePair
      ((applyPass oneRowDoc onePair ((applyPass oneRowDoc onePair []).2)).2)).1
      = [[some "y"]] :=
  dedup_passes_amended oneRowDoc twoRowDoc onePair [] [some "y"]
    (by decide) (by decide) (by decide)

/-! ## Lemmas about base inference -/

/-- The function `splitSpace` never returns the empty list (JS `split` returns at
least one chunk). -/
theorem splitSpaceAux_ne_nil (l : List Char) : ∀ cur, splitSpaceAux cur l ≠ [] := by
  induction l with
  | nil => intro cur; simp [splitSpaceAux]
  | cons c rest ih =>
    intro cur
    by_cases hc : c = ' ' <;> simp [splitSpaceAux, hc, ih]

/-- The first candidate base is the head of the candidate list. -/
theorem candidateBases_head (fragments : List String) (h : fragments ≠ []) :
    ∃ tail, candidateBases fragments
      = String.intercalate " " (fragments.take 1) :: tail := by
  obtain ⟨n, hn⟩ := Nat.exists_eq_succ_of_ne_zero
    (by simpa [List.length_eq_zero] using h : fragments.length ≠ 0)
  refine ⟨(List.map Nat.succ (List.range n)).map
    (fun i => String.intercalate " " (fragments.take (i + 1))), ?_⟩
  rw [candidateBases, hn, List.range_succ_eq_map]
  simp

/-- If the loop returns `some b`, then either it was already the
accumulator, or `b` is one of the candidates and every selector
`startsWith` it. -/
theorem selectorBaseLoop_some (selectors : List String) :
    ∀ (cands : List String) (acc : Option String) (b : String),
    selectorBaseLoop selectors cands acc = some b →
    acc = some b
    ∨ (b ∈ cands ∧ selectors.all (fun s => jsStartsWith s b) = true) := by
  intro cands
  induction cands with
  | nil =>
    intro acc b h
    exact Or.inl (by simpa [selectorBaseLoop] using h)
  | cons c cs ih =>
    intro acc b h
    simp only [selectorBaseLoop] at h
    by_cases hall : selectors.all (fun s => jsStartsWith s c) = true
    · rw [if_pos hall] at h
      rcases ih (some c) b h with hacc | ⟨hmem, hstart⟩
      · have hcb : c = b := by injection hacc
        exact Or.inr ⟨hcb ▸ List.mem_cons_self c cs, hcb ▸ hall⟩
      · exact Or.inr ⟨List.mem_cons_of_mem _ hmem, hstart⟩
    · rw [if_neg hall] at h
      exact Or.inl h

/-- A non-`none` result of `getSelectorBase` is the join of the first
`k + 1` whitespace tokens of the first selector, and every selector
`startsWith` it. -/
theorem getSelectorBase_spec (s0 : SelectorPair) (rest : List SelectorPair)
    (b : String) (h : getSelectorBase (s0 :: rest) = some b) :
    (∃ k, b = String.intercalate " "
        ((splitSpace s0.contentSelector).take (k + 1)))
  ∧ ∀ sp ∈ s0 :: rest, jsStartsWith sp.contentSelector b = true := by
  simp only [getSelectorBase, List.map_cons] at h
  rcases selectorBaseLoop_some _ _ _ _ h with hacc | ⟨hmem, hall⟩
  · exact absurd hacc (by simp)
  · constructor
    · obtain ⟨i, _, heq⟩ := List.mem_map.mp hmem
      exact ⟨i, heq.symm⟩
    · intro sp hsp
      have hmem2 : sp.contentSelector
          ∈ s0.contentSelector :: rest.map (fun sp => sp.contentSelector) := by
        have := List.mem_map_of_mem (fun sp : SelectorPair => sp.contentSelector) hsp
        simpa using this
      exact List.all_eq_true.mp hall _ hmem2

/-! ## Claim theorems: base inference -/

/-- C6: whenever `getSelectorBase` returns a non-none result, that result
is a prefix under string `startsWith` of every input selector's
`contentSelector`. -/
theorem base_is_string_prefix (ps : List SelectorPair) (b : String)
    (sp : SelectorPair) (h : getSelectorBase ps = some b) (hsp : sp ∈ ps) :
    jsStartsWith sp.contentSelector b = true := by
  cases ps with
  | nil => exact absurd h (by simp [getSelectorBase])
  | cons s0 rest => exact (getSelectorBase_spec s0 rest b h).2 sp hsp

/-- Witness for C6 on the spec's §8 selector pairs. -/
theorem base_is_string_prefix_witness :
    jsStartsWith ".item .price" ".item" = true :=
  base_is_string_prefix itemPairs ".item" ⟨none, ".item .price", "innerText"⟩
    (by decide) (by decide)

/-- C3, counterexample: on selectors `"ab c"` and `"abd e"` the inferred
base is `"ab"`, which is not a whitespace-token-sequence prefix of
`"abd e"` — and the two selectors share no common leading token, yet the
result is not `none`. -/
theorem base_token_prefix_counterexample :
    getSelectorBase [⟨none, "ab c", "t"⟩, ⟨none, "abd e", "t"⟩] = some "ab"
  ∧ tokPrefix "ab" "abd e" = false
  ∧ (splitSpace "ab c").headD "" ≠ (splitSpace "abd e").headD "" := by
  decide

/-- C3, amended: a non-none base is the join of the first `k + 1`
whitespace tokens of the FIRST selector and a string prefix (under
`startsWith`) of every selector; and whenever some selector does not
start (as a string) with the first token of the first selector, base
inference returns `none`. -/
theorem base_token_prefix_amended (ps : List SelectorPair) (s0 : SelectorPair)
    (rest : List SelectorPair) (hps : ps = s0 :: rest) :
    (∀ b, getSelectorBase ps = some b →
      (∃ k, b = String.intercalate " "
          ((splitSpace s0.contentSelector).take (k + 1)))
      ∧ ∀ sp ∈ ps, jsStartsWith sp.contentSelector b = true)
  ∧ ((∃ sp ∈ ps, jsStartsWith sp.contentSelector
        (String.intercalate " " ((splitSpace s0.contentSelector).take 1))
          = false) →
      getSelectorBase ps = none) := by
  subst hps
  constructor
  · intro b hb
    exact getSelectorBase_spec s0 rest b hb
  · rintro ⟨sp, hsp, hfail⟩
    obtain ⟨tail, htail⟩ := candidateBases_head (splitSpace s0.contentSelector)
      (splitSpaceAux_ne_nil _ [])
    have hall : ((s0 :: rest).map (fun sp => sp.contentSelector)).all
        (fun s => jsStartsWith s
          (String.intercalate " " ((splitSpace s0.contentSelector).take 1)))
        = false := by
      rw [← Bool.not_eq_true, List.all_eq_true]
      push_neg
      exact ⟨sp.contentSelector, List.mem_map_of_mem _ hsp, by simp [hfail]⟩
    simp only [getSelectorBase, List.map_cons]
    rw [htail]
    simp only [selectorBaseLoop]
    rw [if_neg (by simp only [List.map_cons] at hall; simp [hall])]

/-- Witness for the amended C3 on the spec's §8 selector pairs. -/
theorem base_token_prefix_amended_witness :
    (∀ b, getSelectorBase itemPairs = some b →
      (∃ k, b = String.intercalate " "
          ((splitSpace ".item .title").take (k + 1)))
      ∧ ∀ sp ∈ itemPairs, jsStartsWith sp.contentSelector b = true)
  ∧ ((∃ sp ∈ itemPairs, jsStartsWith sp.contentSelector
        (String.intercalate " " ((splitSpace ".item .title").take 1))
          = false) →
      getSelectorBase itemPairs = none) :=
  base_token_prefix_amended itemPairs ⟨none, ".item .title", "innerText"⟩
    [⟨none, ".item .price", "innerText"⟩] rfl

/-- C7: with exactly one selector pair, base inference returns `none` and
extraction runs in global mode — the single selector is queried against
the whole tree. -/
theorem single_pair_global (doc : DomDoc) (ps : List SelectorPair)
    (h : ps.length = 1) :
    inferSelectorBase doc ps = none
  ∧ extractContent doc ps = globalExtract doc ps := by
  have h1 : ¬ (ps.length > 1) := by omega
  have hbase : inferSelectorBase doc ps = none := by
    simp [inferSelectorBase, if_neg h1]
  exact ⟨hbase, by simp [extractContent, hbase]⟩

/-- Witness for C7: one pair, one matching element. -/
theorem single_pair_global_witness :
    inferSelectorBase oneRowDoc onePair = none
  ∧ extractContent oneRowDoc onePair = globalExtract oneRowDoc onePair :=
  single_pair_global oneRowDoc onePair (by decide)

/-! ## Lemmas about row alignment -/

/-- Every input list is at most as long as the common maximum. -/
theorem length_le_maxLen (cols : List (List Cell)) :
    ∀ c ∈ cols, c.length ≤ maxLen cols := by
  induction cols with
  | nil => simp
  | cons c cs ih =>
    intro d hd
    rcases List.mem_cons.mp hd with h | h
    · subst h
      exact le_max_left _ _
    · exact le_trans (ih d h) (le_max_right _ _)

/-- A list no longer than `m` pads to length exactly `m`. -/
theorem padColumn_length (m : Nat) (c : List Cell) (h : c.length ≤ m) :
    (padColumn m c).length = m := by
  by_cases hlt : c.length < m
  · simp only [padColumn, if_pos hlt, List.length_append, List.length_replicate]
    omega
  · simp only [padColumn, if_neg hlt]
    omega

/-- In the padded tail, every value is the list's original last value, or
`""` if it was empty. -/
theorem padColumn_getD_le (m : Nat) (c : List Cell) (idx : Nat)
    (h1 : c.length ≤ idx) (h2 : idx < m) :
    (padColumn m c).getD idx none = c.getLast?.getD (some "") := by
  have hlt : c.length < m := lt_of_le_of_lt h1 h2
  simp only [padColumn, if_pos hlt]
  rw [List.getD_eq_getElem?_getD, List.getElem?_append_right h1,
    List.getElem?_replicate, if_pos (by omega)]
  rfl

/-- Below the original length, padding does not change the value. -/
theorem padColumn_getD_lt (m : Nat) (c : List Cell) (idx : Nat)
    (h : idx < c.length) :
    (padColumn m c).getD idx none = c.getD idx none := by
  by_cases hlt : c.length < m
  · simp only [padColumn, if_pos hlt]
    rw [List.getD_eq_getElem?_getD, List.getElem?_append_left h,
      ← List.getD_eq_getElem?_getD]
  · simp [padColumn, hlt]

/-- Row `r` of the transposed output, before projection to a column. -/
theorem transform_mem (cols : List (List Cell)) (row : List Cell)
    (h : row ∈ transformToContentRows cols) :
    ∃ idx, idx < maxLen cols
      ∧ row = (cols.map (padColumn (maxLen cols))).map
          (fun col => col.getD idx none) := by
  simp only [transformToContentRows, List.mem_map] at h
  obtain ⟨idx, hidx, heq⟩ := h
  exact ⟨idx, List.mem_range.mp hidx, heq.symm⟩

/-- Entry `(r, i)` of the output is entry `r` of padded column `i`. -/
theorem transform_getD (cols : List (List Cell)) (i r : Nat)
    (hi : i < cols.length) (hr : r < maxLen cols) :
    ((transformToContentRows cols).getD r []).getD i none
      = (padColumn (maxLen cols) (cols.getD i [])).getD r none := by
  have houter : (transformToContentRows cols).getD r []
      = (cols.map (padColumn (maxLen cols))).map (fun col => col.getD r none) := by
    simp only [transformToContentRows]
    rw [List.getD_eq_getElem?_getD, List.getElem?_map, List.getElem?_range hr]
    rfl
  rw [houter, List.getD_eq_getElem?_getD, List.getElem?_map, List.getElem?_map,
    List.getElem?_eq_getElem hi, List.getD_eq_getElem cols [] hi]
  simp

/-! ## Claim theorems: row alignment -/

/-- C2: for a non-empty family of per-selector value lists, alignment
yields exactly `max` rows of exactly `N` columns, and every padded tail
value equals the list's original last value, or `""` if the list was
originally empty. -/
theorem row_alignment (cols : List (List Cell)) (hN : 0 < cols.length) :
    (transformToContentRows cols).length = maxLen cols
  ∧ (∀ row ∈ transformToContentRows cols, row.length = cols.length)
  ∧ (∀ i r, i < cols.length → (cols.getD i []).length ≤ r → r < maxLen cols →
      ((transformToContentRows cols).getD r []).getD i none
        = (cols.getD i []).getLast?.getD (some "")) := by
  refine ⟨by simp [transformToContentRows], ?_, ?_⟩
  · intro row hrow
    obtain ⟨idx, _, heq⟩ := transform_mem cols row hrow
    simp [heq]
  · intro i r hi hlen hr
    rw [transform_getD cols i r hi hr]
    exact padColumn_getD_le _ _ _ hlen hr

/-- Witness for C2 on two ragged columns. -/
theorem row_alignment_witness :
    (transformToContentRows [[some "a", some "b"], [some "c"]]).length = 2
  ∧ ((transformToContentRows [[some "a", some "b"], [some "c"]]).getD 1 []).getD
      1 none = some "c" :=
  ⟨(row_alignment [[some "a", some "b"], [some "c"]] (by decide)).1.trans
      (by decide),
    ((row_alignment [[some "a", some "b"], [some "c"]] (by decide)).2.2 1 1
      (by decide) (by decide) (by decide)).trans (by decide)⟩

/-! ## Lemmas about extraction -/

/-- Every value in a scoped-mode per-selector list is truthy: the
`.filter(val => val)` of line 109 keeps only non-empty values. -/
theorem colsForBase_truthy (doc : DomDoc) (ps : List SelectorPair)
    (b : String) (elm : Nat) (col : List Cell) (v : Cell)
    (h1 : col ∈ colsForBase doc ps b elm) (h2 : v ∈ col) : truthy v = true := by
  simp only [colsForBase, List.mem_map] at h1
  obtain ⟨p, _, heq⟩ := h1
  rw [← heq] at h2
  exact (List.mem_filter.mp h2).2

/-- The scoped-mode reduce is the concatenation of each base element's
contribution. -/
theorem scopedRows_eq_flatten (doc : DomDoc) (ps : List SelectorPair)
    (b : String) :
    ∀ (elms : List Nat) (init : List (List Cell)),
    elms.foldl (fun rows baseElm => rows ++ rowsForBase doc ps b baseElm) init
      = init ++ (elms.map (rowsForBase doc ps b)).flatten := by
  intro elms
  induction elms with
  | nil => intro init; simp
  | cons e es ih =>
    intro init
    rw [List.foldl_cons, ih, List.map_cons, List.flatten_cons, List.append_assoc]

/-- Membership in the scoped rows comes from one of the base elements. -/
theorem mem_scopedRows (doc : DomDoc) (ps : List SelectorPair) (b : String)
    (elms : List Nat) (row : List Cell) (h : row ∈ scopedRows doc ps b elms) :
    ∃ elm ∈ elms, row ∈ rowsForBase doc ps b elm := by
  rw [scopedRows, scopedRows_eq_flatten, List.nil_append] at h
  obtain ⟨l, hl, hrow⟩ := List.mem_flatten.mp h
  obtain ⟨elm, helm, heq⟩ := List.mem_map.mp hl
  exact ⟨elm, helm, heq ▸ hrow⟩

/-- Every row a base element contributes has at least one truthy value. -/
theorem rowsForBase_any_truthy (doc : DomDoc) (ps : List SelectorPair)
    (b : String) (elm : Nat) (row : List Cell)
    (h : row ∈ rowsForBase doc ps b elm) : row.any truthy = true := by
  by_cases hvalid : validRowResult (colsForBase doc ps b elm) = true
  case neg => simp [rowsForBase, hvalid] at h
  rw [rowsForBase] at h
  simp only [if_pos hvalid] at h
  set cols := colsForBase doc ps b elm with hcols
  obtain ⟨c, hc, hclen⟩ := List.any_eq_true.mp hvalid
  obtain ⟨idx, hidx, heq⟩ := transform_mem cols row h
  have hvmem : (padColumn (maxLen cols) c).getD idx none ∈ row := by
    rw [heq]
    exact List.mem_map_of_mem _ (List.mem_map_of_mem _ hc)
  refine List.any_eq_true.mpr ⟨_, hvmem, ?_⟩
  by_cases hlt : idx < c.length
  · rw [padColumn_getD_lt _ _ _ hlt, List.getD_eq_getElem c none hlt]
    exact colsForBase_truthy doc ps b elm c _ hc (List.getElem_mem hlt)
  · have hle : c.length ≤ idx := Nat.le_of_not_lt hlt
    rw [padColumn_getD_le _ _ _ hle hidx]
    have hne : c ≠ [] := by
      intro hc0
      rw [hc0] at hclen
      simp at hclen
    rw [List.getLast?_eq_getLast c hne]
    exact colsForBase_truthy doc ps b elm c _ hc (List.getLast_mem hne)

/-- The head of a `dropWhile` result fails the predicate. -/
theorem head_dropWhile_false (p : Char → Bool) (l : List Char) (c : Char)
    (h : (l.dropWhile p).head? = some c) : p c = false := by
  induction l with
  | nil => simp at h
  | cons a t ih =>
    rw [List.dropWhile_cons] at h
    by_cases hp : p a = true
    · rw [if_pos hp] at h
      exact ih h
    · rw [if_neg hp] at h
      simp only [List.head?_cons, Option.some.injEq] at h
      subst h
      exact Bool.eq_false_iff.mpr hp

/-- Since `dropWhile` removes only a prefix, a nonempty result keeps the
last element of the input. -/
theorem getLast?_dropWhile (p : Char → Bool) (l : List Char) (c : Char)
    (h : (l.dropWhile p).getLast? = some c) : l.getLast? = some c := by
  induction l with
  | nil => simp at h
  | cons a t ih =>
    rw [List.dropWhile_cons] at h
    by_cases hp : p a = true
    · rw [if_pos hp] at h
      rw [List.getLast?_cons, ih h]
      rfl
    · rw [if_neg hp] at h
      exact h

/-- A list whose head fails the predicate is unchanged by `dropWhile`. -/
theorem dropWhile_eq_self_of_head (p : Char → Bool) (l : List Char)
    (h : ∀ c, l.head? = some c → p c = false) : l.dropWhile p = l := by
  cases l with
  | nil => rfl
  | cons a t =>
    have ha := h a rfl
    rw [List.dropWhile_cons, if_neg (by simp [ha])]

/-- JS `trim` is idempotent: a trimmed string is already
whitespace-stripped on both ends. -/
theorem jsTrim_idem (s : String) : jsTrim (jsTrim s) = jsTrim s := by
  have hdata : ∀ l : List Char, (String.mk l).data = l := fun l => rfl
  unfold jsTrim
  rw [hdata]
  congr 1
  have hstep2 : ((s.data.dropWhile Char.isWhitespace).reverse.dropWhile
        Char.isWhitespace).dropWhile Char.isWhitespace
      = (s.data.dropWhile Char.isWhitespace).reverse.dropWhile
        Char.isWhitespace :=
    dropWhile_eq_self_of_head _ _
      (fun c hc => head_dropWhile_false _ _ c hc)
  have hstep1 : (((s.data.dropWhile Char.isWhitespace).reverse.dropWhile
        Char.isWhitespace).reverse).dropWhile Char.isWhitespace
      = ((s.data.dropWhile Char.isWhitespace).reverse.dropWhile
        Char.isWhitespace).reverse := by
    apply dropWhile_eq_self_of_head
    intro c hc
    rw [List.head?_reverse] at hc
    have h2 := getLast?_dropWhile _ _ c hc
    rw [List.getLast?_reverse] at h2
    exact head_dropWhile_false _ _ c h2
  rw [hstep1, List.reverse_reverse, hstep2]

/-- A truthy value produced by `trimRead` is a non-empty string that is a
fixed point of `jsTrim` — it is trimmed. -/
theorem trimRead_truthy_trimmed (a : Option String) (v : Cell)
    (hv : trimRead a = v) (ht : truthy v = true) :
    ∃ s, v = some s ∧ s ≠ "" ∧ jsTrim s = s := by
  cases a with
  | none =>
    simp only [trimRead] at hv
    rw [← hv] at ht
    simp [truthy] at ht
  | some s0 =>
    by_cases hs0 : s0 = ""
    · rw [hs0] at hv
      simp only [trimRead, if_pos rfl] at hv
      rw [← hv] at ht
      simp [truthy] at ht
    · simp only [trimRead, if_neg hs0] at hv
      refine ⟨jsTrim s0, hv.symm, ?_, jsTrim_idem s0⟩
      rw [← hv] at ht
      simpa [truthy] using ht

/-! ## Claim theorems: extraction -/

/-- C4, counterexample: in global mode an absent attribute value is NOT
dropped — the per-selector list keeps the falsy `null` value, and the
pass emits it. -/
theorem global_filter_counterexample :
    globalCols absentAttrDoc onePair = [[none]]
  ∧ extractContent absentAttrDoc onePair = [[none]]
  ∧ truthy none = false := by
  decide

/-- C4, amended: in scoped mode every extracted per-selector value is
truthy and trimmed — a non-empty string that is a fixed point of `jsTrim`
(every empty or absent value is dropped before alignment) — but in global
mode nothing is dropped: each global per-selector list has exactly one
entry per matched element. -/
theorem trim_filter_amended (doc : DomDoc) (ps : List SelectorPair)
    (b : String) (elm : Nat) (col : List Cell) (v : Cell)
    (h1 : col ∈ colsForBase doc ps b elm) (h2 : v ∈ col) :
    truthy v = true
  ∧ (∃ s, v = some s ∧ s ≠ "" ∧ jsTrim s = s)
  ∧ (globalCols doc ps).map List.length
      = ps.map (fun sp => (doc.rootQuery sp.contentSelector).length) := by
  have htruthy := colsForBase_truthy doc ps b elm col v h1 h2
  refine ⟨htruthy, ?_, by simp [globalCols, List.map_map, Function.comp]⟩
  simp only [colsForBase, List.mem_map] at h1
  obtain ⟨p, _, heq⟩ := h1
  rw [← heq] at h2
  obtain ⟨elm2, _, hv⟩ := List.mem_map.mp (List.mem_filter.mp h2).1
  exact trimRead_truthy_trimmed _ v hv htruthy

/-- Witness for the amended C4 on the spec's §8 fixture. -/
theorem trim_filter_amended_witness :
    truthy (some "T1") = true
  ∧ (∃ s, (some "T1" : Cell) = some s ∧ s ≠ "" ∧ jsTrim s = s)
  ∧ (globalCols itemDoc itemPairs).map List.length
      = itemPairs.map (fun sp => (itemDoc.rootQuery sp.contentSelector).length) :=
  trim_filter_amended itemDoc itemPairs ".item" 1 [some "T1"] (some "T1")
    (by decide) (by decide)

/-- C5, counterexample: in global mode a row whose only column is the
empty string is emitted — both by `extractContent` and by a fresh pass
after dedup. -/
theorem all_empty_row_counterexample :
    extractContent emptyAttrDoc onePair = [[some ""]]
  ∧ (applyPass emptyAttrDoc onePair []).1 = [[some ""]]
  ∧ ([some ""] : List Cell).any truthy = false := by
  decide

/-- C5, amended: in scoped mode no all-empty row is ever emitted — every
row of the computed content, and hence of the deduplicated pass output,
has at least one truthy column. -/
theorem no_all_empty_rows_scoped (doc : DomDoc) (ps : List SelectorPair)
    (b : String) (seen : List String)
    (h : inferSelectorBase doc ps = some b) :
    (∀ row ∈ extractContent doc ps, row.any truthy = true)
  ∧ (∀ row ∈ (applyPass doc ps seen).1, row.any truthy = true) := by
  have hextract : ∀ row ∈ extractContent doc ps, row.any truthy = true := by
    intro row hrow
    rw [extractContent, h] at hrow
    obtain ⟨elm, _, hmem⟩ := mem_scopedRows doc ps b _ row hrow
    exact rowsForBase_any_truthy doc ps b elm row hmem
  refine ⟨hextract, fun row hrow => ?_⟩
  exact hextract row ((diffAndMerge_spec seen (extractContent doc ps)).1.mem hrow)

/-- Witness for the amended C5 on the spec's §8 fixture. -/
theorem no_all_empty_rows_scoped_witness :
    [some "T1", some "P1"].any truthy = true :=
  (no_all_empty_rows_scoped itemDoc itemPairs ".item" [] (by decide)).1
    [some "T1", some "P1"] (by decide)

/-- C8: a base element whose extraction yields no non-empty value in any
column contributes zero rows: its own contribution is empty, and removing
it from the base-element list leaves the scoped rows unchanged. -/
theorem empty_base_element_contributes_nothing (doc : DomDoc)
    (ps : List SelectorPair) (b : String) (l1 l2 : List Nat) (elm : Nat)
    (h : validRowResult (colsForBase doc ps b elm) = false) :
    rowsForBase doc ps b elm = []
  ∧ scopedRows doc ps b (l1 ++ elm :: l2) = scopedRows doc ps b (l1 ++ l2) := by
  have hrows : rowsForBase doc ps b elm = [] := by
    simp [rowsForBase, h]
  refine ⟨hrows, ?_⟩
  simp only [scopedRows]
  rw [List.foldl_append, List.foldl_append, List.foldl_cons, hrows,
    List.append_nil]

/-- Witness for C8: element 3 of the §8 fixture matches no content. -/
theorem empty_base_element_contributes_nothing_witness :
    rowsForBase itemDoc itemPairs ".item" 3 = []
  ∧ scopedRows itemDoc itemPairs ".item" ([1] ++ 3 :: [2])
      = scopedRows itemDoc itemPairs ".item" ([1] ++ [2]) :=
  empty_base_element_contributes_nothing itemDoc itemPairs ".item" [1] [2] 3
    (by decide)

/-- C9: the applicability test with an absent resource returns `false`
rather than raising, whatever the project and configured selector pairs
are. -/
theorem test_null_resource (project : Project)
    (selectorPairs : Option (List SelectorPair)) :
    test project selectorPairs none = false := rfl

end Scraper
